import Mathlib

/-!
Verification of the `MaybeDone` combinator
(`src/futures-util/src/future/maybe_done.rs`).

The inner future is modelled as a deterministic step function
`f : σ → σ × Poll α` on an explicit state type `σ`: one call of the inner
future's `poll` consumes the current state and yields the mutated state
together with a `Poll` result (the waker argument plays no role in any of
the properties below, so it is omitted).  The wrapper `MaybeDone` is the
three-variant tagged union of the source; its `Future` variant holds the
inner future's current state.  Operations that can panic in the source
(`poll` on `Gone`, and the `unreachable!()` arm inside `take_output`)
return `Except String`, with `Except.error` standing for a panic.
-/

namespace FuturesUtil

/-- `core::task::Poll`: the result of one poll of a future with output `α`. -/
inductive Poll (α : Type) where
  | Ready : α → Poll α
  | Pending : Poll α
deriving DecidableEq, Repr

/-- The `MaybeDone` enum: `Future` holds the not-yet-completed inner future
(its state), `Done` holds the output of the completed future, `Gone` is the
empty variant after the result has been taken. -/
inductive MaybeDone (σ α : Type) where
  | Future : σ → MaybeDone σ α
  | Done : α → MaybeDone σ α
  | Gone : MaybeDone σ α
deriving DecidableEq, Repr

/-- `maybe_done(future)`: wraps a future into a `MaybeDone`, starting in the
`Future` variant. -/
def maybe_done {σ α : Type} (future : σ) : MaybeDone σ α :=
  MaybeDone.Future future

namespace MaybeDone

variable {σ α : Type}

/-- `MaybeDone::output_mut`: the value the returned mutable reference points
to — `Some(res)` when the state is `Done(res)`, `None` otherwise.  The
source performs no state change here. -/
def output_mut : MaybeDone σ α → Option α
  | MaybeDone.Done res => some res
  | _ => none

/-- `MaybeDone::take_output`, with the state passed explicitly.  The source
first matches: on `Future` or `Gone` it returns `None` without touching the
state; on `Done` it falls through to `mem::replace(this, Gone)` and matches
the old value again, with an `unreachable!()` arm (modelled as
`Except.error`) for the non-`Done` cases of the replaced value. -/
def take_output (m : MaybeDone σ α) : Except String (Option α × MaybeDone σ α) :=
  match m with
  | MaybeDone.Future s => Except.ok (none, MaybeDone.Future s)
  | MaybeDone.Gone => Except.ok (none, MaybeDone.Gone)
  | MaybeDone.Done _ =>
    match m with
    | MaybeDone.Done output => Except.ok (some output, MaybeDone.Gone)
    | MaybeDone.Future _ => Except.error "unreachable"
    | MaybeDone.Gone => Except.error "unreachable"

/-- `<MaybeDone as FusedFuture>::is_terminated`. -/
def is_terminated : MaybeDone σ α → Bool
  | MaybeDone.Future _ => false
  | MaybeDone.Done _ => true
  | MaybeDone.Gone => true

/-- `<MaybeDone as Future>::poll`, with the inner future's step function `f`
and the state passed explicitly.  On `Future(a)` the inner future is polled
in place: if it is pending, the wrapper returns `Pending` keeping the
mutated inner state; if it is ready with `res`, the state is set to
`Done(res)` and the wrapper returns `Ready(())`.  On `Done` it returns
`Ready(())` unchanged; on `Gone` it panics. -/
def poll (f : σ → σ × Poll α) : MaybeDone σ α → Except String (Poll Unit × MaybeDone σ α)
  | MaybeDone.Future a =>
    match f a with
    | (a2, Poll.Pending) => Except.ok (Poll.Pending, MaybeDone.Future a2)
    | (_, Poll.Ready res) => Except.ok (Poll.Ready (), MaybeDone.Done res)
  | MaybeDone.Done v => Except.ok (Poll.Ready (), MaybeDone.Done v)
  | MaybeDone.Gone => Except.error "MaybeDone polled after value taken"

end MaybeDone

/-- The state of the inner future after it has been polled `n` times while
still pending: `innerTrace f s 0 = s` and each step applies `f`. -/
def innerTrace {σ α : Type} (f : σ → σ × Poll α) (s : σ) : Nat → σ
  | 0 => s
  | n + 1 => (f (innerTrace f s n)).1

/-- The wrapper state after `n` consecutive `poll` calls starting from `m`
(`Except.error` as soon as any of them panics). -/
def pollsFrom {σ α : Type} (f : σ → σ × Poll α) : Nat → MaybeDone σ α → Except String (MaybeDone σ α)
  | 0, m => Except.ok m
  | n + 1, m =>
    match pollsFrom f n m with
    | Except.ok m2 =>
      match MaybeDone.poll f m2 with
      | Except.ok (_, m3) => Except.ok m3
      | Except.error e => Except.error e
    | Except.error e => Except.error e

/-- The `Poll` value returned by the `k`-th (1-indexed) `poll` call on the
wrapper `maybe_done s`. -/
def pollResultAt {σ α : Type} (f : σ → σ × Poll α) (s : σ) (k : Nat) : Except String (Poll Unit) :=
  match pollsFrom f (k - 1) (maybe_done s) with
  | Except.ok m =>
    match MaybeDone.poll f m with
    | Except.ok (r, _) => Except.ok r
    | Except.error e => Except.error e
  | Except.error e => Except.error e

/-- `is_terminated` observed after `n` `poll` calls on the wrapper
`maybe_done s`. -/
def isTermAfter {σ α : Type} (f : σ → σ × Poll α) (s : σ) (n : Nat) : Except String Bool :=
  match pollsFrom f n (maybe_done s) with
  | Except.ok m => Except.ok (MaybeDone.is_terminated m)
  | Except.error e => Except.error e

/-- The operations a caller can invoke on a `MaybeDone`. -/
inductive Op where
  | poll : Op
  | take : Op
  | outm : Op
  | isterm : Op
deriving DecidableEq, Repr

/-- The observable outcome of one operation. -/
inductive Event (α : Type) where
  | polled : Poll Unit → Event α
  | took : Option α → Event α
  | outRef : Option α → Event α
  | term : Bool → Event α
deriving DecidableEq, Repr

/-- One operation applied to a wrapper state: the event it produces and the
successor state (`Except.error` on panic). -/
def step {σ α : Type} (f : σ → σ × Poll α) (m : MaybeDone σ α) : Op → Except String (Event α × MaybeDone σ α)
  | Op.poll =>
    match MaybeDone.poll f m with
    | Except.ok (r, m2) => Except.ok (Event.polled r, m2)
    | Except.error e => Except.error e
  | Op.take =>
    match MaybeDone.take_output m with
    | Except.ok (r, m2) => Except.ok (Event.took r, m2)
    | Except.error e => Except.error e
  | Op.outm => Except.ok (Event.outRef (MaybeDone.output_mut m), m)
  | Op.isterm => Except.ok (Event.term (MaybeDone.is_terminated m), m)

/-- Run a sequence of operations from a wrapper state, collecting the events
produced; aborts with `Except.error` at the first panic. -/
def run {σ α : Type} (f : σ → σ × Poll α) (m : MaybeDone σ α) : List Op → Except String (List (Event α) × MaybeDone σ α)
  | [] => Except.ok ([], m)
  | op :: ops =>
    match step f m op with
    | Except.ok (e, m2) =>
      match run f m2 ops with
      | Except.ok (evs, mf) => Except.ok (e :: evs, mf)
      | Except.error er => Except.error er
    | Except.error er => Except.error er

/-- Whether an event is a `take_output` call that returned `Some`. -/
def isTookSome {α : Type} : Event α → Bool
  | Event.took (some _) => true
  | _ => false

/-- The number of `take_output` calls in a trace that returned `Some`. -/
def countTakeSome {α : Type} (evs : List (Event α)) : Nat :=
  evs.countP (fun e => isTookSome e)

/-! ## Helper lemmas -/

theorem countTakeSome_cons {α : Type} (e : Event α) (evs : List (Event α)) :
    countTakeSome (e :: evs) = countTakeSome evs + (if isTookSome e then 1 else 0) := by
  simp [countTakeSome, List.countP_cons]

/-- Inversion for a successful `run` on a non-empty operation list. -/
theorem run_cons_ok {σ α : Type} {f : σ → σ × Poll α} {m : MaybeDone σ α}
    {op : Op} {ops : List Op} {evs : List (Event α)} {mf : MaybeDone σ α}
    (h : run f m (op :: ops) = Except.ok (evs, mf)) :
    ∃ e m2 evs2, step f m op = Except.ok (e, m2)
      ∧ run f m2 ops = Except.ok (evs2, mf) ∧ evs = e :: evs2 := by
  simp only [run] at h
  cases hstep : step f m op with
  | error e => rw [hstep] at h; simp at h
  | ok em =>
    obtain ⟨e, m2⟩ := em
    rw [hstep] at h
    simp only at h
    cases hrec : run f m2 ops with
    | error er => rw [hrec] at h; simp at h
    | ok r =>
      obtain ⟨evs2, mf2⟩ := r
      rw [hrec] at h
      simp only at h
      simp at h
      obtain ⟨rfl, rfl⟩ := h
      exact ⟨e, m2, evs2, rfl, hrec, rfl⟩

/-- Polling a wrapper that is already `Done` leaves it `Done` with the same
value, for any number of polls. -/
theorem pollsFrom_done {σ α : Type} (f : σ → σ × Poll α) (v : α) :
    ∀ n, pollsFrom f n (MaybeDone.Done v) = Except.ok (MaybeDone.Done v) := by
  intro n
  induction n with
  | zero => rfl
  | succ n ih => simp [pollsFrom, ih, MaybeDone.poll]

/-- Once some number of polls has reached `Done v`, every longer sequence of
polls still ends in `Done v`. -/
theorem pollsFrom_stable_done {σ α : Type} (f : σ → σ × Poll α) (v : α)
    (n : Nat) (m : MaybeDone σ α)
    (h : pollsFrom f n m = Except.ok (MaybeDone.Done v)) :
    ∀ j, pollsFrom f (n + j) m = Except.ok (MaybeDone.Done v) := by
  intro j
  induction j with
  | zero => exact h
  | succ j ih => simp [pollsFrom, ih, MaybeDone.poll]

/-- How many more `Some` results `take_output` can still deliver from a
given state: one unless the state is `Gone`. -/
def takePotential {σ α : Type} : MaybeDone σ α → Nat
  | MaybeDone.Gone => 0
  | _ => 1

theorem step_takePotential {σ α : Type} (f : σ → σ × Poll α) (m : MaybeDone σ α)
    (op : Op) (e : Event α) (m2 : MaybeDone σ α)
    (h : step f m op = Except.ok (e, m2)) :
    (if isTookSome e then 1 else 0) + takePotential m2 ≤ takePotential m := by
  cases op with
  | poll =>
    cases m with
    | Future s =>
      rcases hfs : f s with ⟨s2, r⟩
      cases r <;> simp [step, MaybeDone.poll, hfs] at h <;>
        obtain ⟨rfl, rfl⟩ := h <;> simp [isTookSome, takePotential]
    | Done v =>
      simp [step, MaybeDone.poll] at h
      obtain ⟨rfl, rfl⟩ := h
      simp [isTookSome, takePotential]
    | Gone => simp [step, MaybeDone.poll] at h
  | take =>
    cases m <;> simp [step, MaybeDone.take_output] at h <;>
      obtain ⟨rfl, rfl⟩ := h <;> simp [isTookSome, takePotential]
  | outm =>
    simp [step] at h
    obtain ⟨rfl, rfl⟩ := h
    simp [isTookSome, takePotential]
  | isterm =>
    simp [step] at h
    obtain ⟨rfl, rfl⟩ := h
    simp [isTookSome, takePotential]

theorem run_takePotential {σ α : Type} (f : σ → σ × Poll α) :
    ∀ (ops : List Op) (m : MaybeDone σ α) (evs : List (Event α)) (mf : MaybeDone σ α),
      run f m ops = Except.ok (evs, mf) →
      countTakeSome evs + takePotential mf ≤ takePotential m := by
  intro ops
  induction ops with
  | nil =>
    intro m evs mf h
    simp [run] at h
    obtain ⟨rfl, rfl⟩ := h
    simp [countTakeSome]
  | cons op ops ih =>
    intro m evs mf h
    obtain ⟨e, m2, evs2, hstep, hrec, rfl⟩ := run_cons_ok h
    have h1 := step_takePotential f m op e m2 hstep
    have h2 := ih m2 evs2 mf hrec
    rw [countTakeSome_cons]
    omega

theorem step_preserves_terminated {σ α : Type} (f : σ → σ × Poll α)
    (m : MaybeDone σ α) (op : Op) (e : Event α) (m2 : MaybeDone σ α)
    (hterm : MaybeDone.is_terminated m = true)
    (h : step f m op = Except.ok (e, m2)) :
    MaybeDone.is_terminated m2 = true := by
  cases m with
  | Future s => simp [MaybeDone.is_terminated] at hterm
  | Done v =>
    cases op <;>
      simp [step, MaybeDone.poll, MaybeDone.take_output] at h <;>
      obtain ⟨rfl, rfl⟩ := h <;> rfl
  | Gone =>
    cases op <;>
      simp [step, MaybeDone.poll, MaybeDone.take_output] at h <;>
      obtain ⟨rfl, rfl⟩ := h <;> rfl

theorem run_preserves_terminated {σ α : Type} (f : σ → σ × Poll α) :
    ∀ (ops : List Op) (m : MaybeDone σ α) (evs : List (Event α)) (mf : MaybeDone σ α),
      MaybeDone.is_terminated m = true →
      run f m ops = Except.ok (evs, mf) →
      MaybeDone.is_terminated mf = true := by
  intro ops
  induction ops with
  | nil =>
    intro m evs mf hterm h
    simp [run] at h
    obtain ⟨rfl, rfl⟩ := h
    exact hterm
  | cons op ops ih =>
    intro m evs mf hterm h
    obtain ⟨e, m2, evs2, hstep, hrec, rfl⟩ := run_cons_ok h
    exact ih m2 evs2 mf (step_preserves_terminated f m op e m2 hterm hstep) hrec

theorem run_done_no_take {σ α : Type} (f : σ → σ × Poll α) (v : α) :
    ∀ (ops : List Op) (evs : List (Event α)) (mf : MaybeDone σ α),
      Op.take ∉ ops →
      run f (MaybeDone.Done v) ops = Except.ok (evs, mf) →
      mf = MaybeDone.Done v := by
  intro ops
  induction ops with
  | nil =>
    intro evs mf _ h
    simp [run] at h
    exact h.2.symm
  | cons op ops ih =>
    intro evs mf hno h
    have hop : op ≠ Op.take := fun he => hno (he ▸ List.mem_cons_self op ops)
    have hno2 : Op.take ∉ ops := fun hmem => hno (List.mem_cons_of_mem op hmem)
    obtain ⟨e, m2, evs2, hstep, hrec, rfl⟩ := run_cons_ok h
    have hm2 : m2 = MaybeDone.Done v := by
      cases op with
      | take => exact absurd rfl hop
      | poll =>
        simp [step, MaybeDone.poll] at hstep
        exact hstep.2.symm
      | outm =>
        simp [step] at hstep
        exact hstep.2.symm
      | isterm =>
        simp [step] at hstep
        exact hstep.2.symm
    subst hm2
    exact ih evs2 mf hno2 hrec

/-! ## Claim theorems -/

/-- C4: polling a `MaybeDone` in state `Gone` is an unrecoverable fault: it
panics (modelled as `Except.error`) with the source's message, rather than
returning any `Poll` value. -/
theorem poll_gone_panics {σ α : Type} (f : σ → σ × Poll α) :
    MaybeDone.poll f (MaybeDone.Gone : MaybeDone σ α) =
      Except.error "MaybeDone polled after value taken" := rfl

/-- C5: polling a `MaybeDone` in state `Done v` returns `Ready(())` and
leaves the state (and the cached value `v`) unchanged, so any number of
polls from `Done v` also ends in `Done v` — polling after completion is
idempotent. -/
theorem poll_done_idempotent {σ α : Type} (f : σ → σ × Poll α) (v : α) :
    MaybeDone.poll f (MaybeDone.Done v : MaybeDone σ α) =
      Except.ok (Poll.Ready (), MaybeDone.Done v)
    ∧ ∀ n, pollsFrom f n (MaybeDone.Done v : MaybeDone σ α) =
        Except.ok (MaybeDone.Done v) :=
  ⟨rfl, pollsFrom_done f v⟩

/-- C6: `is_terminated` is a pure function of the state: it returns `true`
iff the state is `Done` or `Gone`, and `false` iff the state is `Future`. -/
theorem is_terminated_pure_query {σ α : Type} (m : MaybeDone σ α) :
    (MaybeDone.is_terminated m = true ↔
      ((∃ v, m = MaybeDone.Done v) ∨ m = MaybeDone.Gone))
    ∧ (MaybeDone.is_terminated m = false ↔ ∃ s, m = MaybeDone.Future s) := by
  cases m <;> simp [MaybeDone.is_terminated]

/-- C10: the `unreachable!()` arm inside `take_output` is dead code:
`take_output` succeeds (never returns the panic marker) in every state. -/
theorem take_output_never_panics {σ α : Type} (m : MaybeDone σ α) :
    ∃ r, MaybeDone.take_output m = Except.ok r := by
  cases m <;> exact ⟨_, rfl⟩

/-- C1: polling a `MaybeDone` in state `Future s` whose inner future
completes with value `v` replaces the state with `Done v` (discarding the
inner future's final state) and returns `Ready(())`, not `v` itself. -/
theorem poll_future_ready_completes {σ α : Type} (f : σ → σ × Poll α) (s : σ) (v : α)
    (h : (f s).2 = Poll.Ready v) :
    MaybeDone.poll f (MaybeDone.Future s) =
      Except.ok (Poll.Ready (), MaybeDone.Done v) := by
  rcases hfs : f s with ⟨s2, r⟩
  rw [hfs] at h
  simp only at h
  subst h
  simp [MaybeDone.poll, hfs]

/-- Witness for C1 at a concrete inner future. -/
theorem poll_future_ready_completes_witness :
    ((fun n : Nat => (n, Poll.Ready (5 : Nat))) 0).2 = Poll.Ready 5
    ∧ MaybeDone.poll (fun n : Nat => (n, Poll.Ready (5 : Nat))) (MaybeDone.Future 0) =
        Except.ok (Poll.Ready (), MaybeDone.Done 5) :=
  ⟨rfl, poll_future_ready_completes (fun n : Nat => (n, Poll.Ready (5 : Nat))) 0 5 rfl⟩

/-- C8: polling a `MaybeDone` in state `Future s` whose inner future is
still pending returns `Pending` and keeps the `Future` variant (holding the
inner future's mutated state) — no transition to `Done` or `Gone`. -/
theorem poll_future_pending_no_change {σ α : Type} (f : σ → σ × Poll α) (s : σ)
    (h : (f s).2 = Poll.Pending) :
    MaybeDone.poll f (MaybeDone.Future s) =
      Except.ok ((Poll.Pending : Poll Unit), MaybeDone.Future (f s).1) := by
  rcases hfs : f s with ⟨s2, r⟩
  rw [hfs] at h
  simp only at h
  subst h
  simp [MaybeDone.poll, hfs]

/-- Witness for C8 at a concrete inner future. -/
theorem poll_future_pending_no_change_witness :
    ((fun n : Nat => (n + 1, (Poll.Pending : Poll Nat))) 4).2 = Poll.Pending
    ∧ MaybeDone.poll (fun n : Nat => (n + 1, (Poll.Pending : Poll Nat))) (MaybeDone.Future 4) =
        Except.ok ((Poll.Pending : Poll Unit),
          MaybeDone.Future ((fun n : Nat => (n + 1, (Poll.Pending : Poll Nat))) 4).1) :=
  ⟨rfl, poll_future_pending_no_change (fun n : Nat => (n + 1, (Poll.Pending : Poll Nat))) 4 rfl⟩

/-- C2: `take_output` in state `Done v` returns `Some v` and moves the state
to `Gone`; in states `Future` and `Gone` it returns `None` and leaves the
state unchanged (never polling the inner future, whose step function it
does not even consult); it never panics; and across any successful sequence
of operations it returns `Some` at most once. -/
theorem take_output_spec {σ α : Type} (f : σ → σ × Poll α) (v : α) (s : σ)
    (ops : List Op) (m : MaybeDone σ α) (evs : List (Event α)) (mf : MaybeDone σ α)
    (h : run f m ops = Except.ok (evs, mf)) :
    MaybeDone.take_output (MaybeDone.Done v : MaybeDone σ α) =
      Except.ok (some v, MaybeDone.Gone)
    ∧ MaybeDone.take_output (MaybeDone.Future s : MaybeDone σ α) =
      Except.ok (none, MaybeDone.Future s)
    ∧ MaybeDone.take_output (MaybeDone.Gone : MaybeDone σ α) =
      Except.ok (none, MaybeDone.Gone)
    ∧ countTakeSome evs ≤ 1 := by
  refine ⟨rfl, rfl, rfl, ?_⟩
  have h1 := run_takePotential f ops m evs mf h
  have h2 : takePotential m ≤ 1 := by
    cases m <;> simp [takePotential]
  omega

/-- Witness for C2 on a concrete run: a countdown future, with `take`
attempted before completion, after completion, and again after the value is
gone. -/
theorem take_output_spec_witness :
    run (fun n : Nat => if n = 0 then ((0 : Nat), Poll.Ready (7 : Nat)) else (n - 1, Poll.Pending))
        (maybe_done 1) [Op.take, Op.poll, Op.poll, Op.take, Op.take] =
      Except.ok ([Event.took none, Event.polled Poll.Pending, Event.polled (Poll.Ready ()),
        Event.took (some 7), Event.took none], MaybeDone.Gone)
    ∧ (MaybeDone.take_output (MaybeDone.Done 7 : MaybeDone Nat Nat) =
        Except.ok (some 7, MaybeDone.Gone)
      ∧ MaybeDone.take_output (MaybeDone.Future 1 : MaybeDone Nat Nat) =
        Except.ok (none, MaybeDone.Future 1)
      ∧ MaybeDone.take_output (MaybeDone.Gone : MaybeDone Nat Nat) =
        Except.ok (none, MaybeDone.Gone)
      ∧ countTakeSome [Event.took (none : Option Nat), Event.polled Poll.Pending,
          Event.polled (Poll.Ready ()), Event.took (some 7), Event.took none] ≤ 1) :=
  ⟨rfl, take_output_spec
    (fun n : Nat => if n = 0 then ((0 : Nat), Poll.Ready (7 : Nat)) else (n - 1, Poll.Pending))
    7 1 [Op.take, Op.poll, Op.poll, Op.take, Op.take] (maybe_done 1)
    [Event.took none, Event.polled Poll.Pending, Event.polled (Poll.Ready ()),
      Event.took (some 7), Event.took none] MaybeDone.Gone rfl⟩

/-- C9: the states `Done` and `Gone` are absorbing: once `is_terminated` is
`true`, it stays `true` after every successful sequence of operations, and
the state can never return to the `Future` variant. -/
theorem terminal_states_absorbing {σ α : Type} (f : σ → σ × Poll α)
    (m : MaybeDone σ α) (ops : List Op) (evs : List (Event α)) (mf : MaybeDone σ α)
    (hterm : MaybeDone.is_terminated m = true)
    (h : run f m ops = Except.ok (evs, mf)) :
    MaybeDone.is_terminated mf = true ∧ ∀ s, mf ≠ MaybeDone.Future s := by
  have hmf := run_preserves_terminated f ops m evs mf hterm h
  refine ⟨hmf, ?_⟩
  intro s hs
  rw [hs] at hmf
  simp [MaybeDone.is_terminated] at hmf

/-- Witness for C9 on a concrete run starting from a `Done` state. -/
theorem terminal_states_absorbing_witness :
    MaybeDone.is_terminated (MaybeDone.Done 3 : MaybeDone Nat Nat) = true
    ∧ run (fun n : Nat => (n, (Poll.Pending : Poll Nat))) (MaybeDone.Done 3)
        [Op.poll, Op.take, Op.isterm] =
      Except.ok ([Event.polled (Poll.Ready ()), Event.took (some 3), Event.term true],
        MaybeDone.Gone)
    ∧ (MaybeDone.is_terminated (MaybeDone.Gone : MaybeDone Nat Nat) = true
      ∧ ∀ s, (MaybeDone.Gone : MaybeDone Nat Nat) ≠ MaybeDone.Future s) :=
  ⟨rfl, rfl, terminal_states_absorbing (fun n : Nat => (n, (Poll.Pending : Poll Nat)))
    (MaybeDone.Done 3) [Op.poll, Op.take, Op.isterm]
    [Event.polled (Poll.Ready ()), Event.took (some 3), Event.term true]
    MaybeDone.Gone rfl rfl⟩

/-- C7: `output_mut` returns `Some w` iff the state is `Done w`, returns
`None` in states `Future` and `Gone`, and never changes the state; along
any successful run from `Done v` that contains no `take_output` call, the
state stays `Done v` and `output_mut` keeps returning `Some v`. -/
theorem output_mut_spec {σ α : Type} (f : σ → σ × Poll α) (v : α) (s : σ)
    (m : MaybeDone σ α) (ops : List Op) (evs : List (Event α)) (mf : MaybeDone σ α)
    (hno : Op.take ∉ ops)
    (h : run f (MaybeDone.Done v) ops = Except.ok (evs, mf)) :
    (∀ w, MaybeDone.output_mut m = some w ↔ m = MaybeDone.Done w)
    ∧ MaybeDone.output_mut (MaybeDone.Future s : MaybeDone σ α) = none
    ∧ MaybeDone.output_mut (MaybeDone.Gone : MaybeDone σ α) = none
    ∧ step f m Op.outm = Except.ok (Event.outRef (MaybeDone.output_mut m), m)
    ∧ mf = MaybeDone.Done v ∧ MaybeDone.output_mut mf = some v := by
  have hmf := run_done_no_take f v ops evs mf hno h
  refine ⟨?_, rfl, rfl, rfl, hmf, ?_⟩
  · intro w
    cases m <;> simp [MaybeDone.output_mut]
  · rw [hmf]
    rfl

/-- Witness for C7 on a concrete run without `take_output` calls. -/
theorem output_mut_spec_witness :
    Op.take ∉ [Op.poll, Op.outm, Op.isterm]
    ∧ run (fun n : Nat => (n, (Poll.Pending : Poll Nat))) (MaybeDone.Done 5)
        [Op.poll, Op.outm, Op.isterm] =
      Except.ok ([Event.polled (Poll.Ready ()), Event.outRef (some 5), Event.term true],
        MaybeDone.Done 5)
    ∧ ((∀ w, MaybeDone.output_mut (MaybeDone.Gone : MaybeDone Nat Nat) = some w ↔
          (MaybeDone.Gone : MaybeDone Nat Nat) = MaybeDone.Done w)
      ∧ MaybeDone.output_mut (MaybeDone.Future 9 : MaybeDone Nat Nat) = none
      ∧ MaybeDone.output_mut (MaybeDone.Gone : MaybeDone Nat Nat) = none
      ∧ step (fun n : Nat => (n, (Poll.Pending : Poll Nat))) MaybeDone.Gone Op.outm =
          Except.ok (Event.outRef (MaybeDone.output_mut (MaybeDone.Gone : MaybeDone Nat Nat)),
            MaybeDone.Gone)
      ∧ MaybeDone.Done 5 = (MaybeDone.Done 5 : MaybeDone Nat Nat)
      ∧ MaybeDone.output_mut (MaybeDone.Done 5 : MaybeDone Nat Nat) = some 5) :=
  ⟨by decide, rfl, output_mut_spec (fun n : Nat => (n, (Poll.Pending : Poll Nat))) 5 9
    MaybeDone.Gone [Op.poll, Op.outm, Op.isterm]
    [Event.polled (Poll.Ready ()), Event.outRef (some 5), Event.term true]
    (MaybeDone.Done 5) (by decide) rfl⟩

/-- While the inner future keeps reporting `Pending`, the wrapper stays in
the `Future` variant, holding the inner future's current state. -/
theorem pollsFrom_future_pending {σ α : Type} (f : σ → σ × Poll α) (s : σ) :
    ∀ j, (∀ i, i < j → (f (innerTrace f s i)).2 = Poll.Pending) →
      pollsFrom f j (maybe_done s) = Except.ok (MaybeDone.Future (innerTrace f s j)) := by
  intro j
  induction j with
  | zero => intro _; rfl
  | succ j ih =>
    intro hp
    have hj := ih (fun i hi => hp i (Nat.lt_succ_of_lt hi))
    have hpj := hp j (Nat.lt_succ_self j)
    rcases hfj : f (innerTrace f s j) with ⟨s2, r⟩
    rw [hfj] at hpj
    simp only at hpj
    subst hpj
    simp [pollsFrom, hj, MaybeDone.poll, hfj, innerTrace]

/-- C3: if the inner future is pending on its first `k - 1` polls and ready
with `v` on its `k`-th, then polling `maybe_done s` returns `Pending` on
each of the first `k - 1` calls and `Ready(())` on the `k`-th, and
`is_terminated` is `false` after fewer than `k` polls and `true` from the
`k`-th poll onward. -/
theorem poll_k_times_spec {σ α : Type} (f : σ → σ × Poll α) (s : σ) (k : Nat) (v : α)
    (hk : 0 < k)
    (hpend : ∀ i, i < k - 1 → (f (innerTrace f s i)).2 = Poll.Pending)
    (hready : (f (innerTrace f s (k - 1))).2 = Poll.Ready v) :
    (∀ i, 0 < i → i < k → pollResultAt f s i = Except.ok (Poll.Pending : Poll Unit))
    ∧ pollResultAt f s k = Except.ok (Poll.Ready ())
    ∧ (∀ i, i < k → isTermAfter f s i = Except.ok false)
    ∧ (∀ i, k ≤ i → isTermAfter f s i = Except.ok true) := by
  have hAfter : ∀ j, j ≤ k - 1 →
      pollsFrom f j (maybe_done s) = Except.ok (MaybeDone.Future (innerTrace f s j)) := by
    intro j hj
    exact pollsFrom_future_pending f s j (fun i hi => hpend i (by omega))
  have hDoneK : pollsFrom f k (maybe_done s) = Except.ok (MaybeDone.Done v) := by
    have hstep : pollsFrom f ((k - 1) + 1) (maybe_done s) = Except.ok (MaybeDone.Done v) := by
      have h1 := hAfter (k - 1) (le_refl _)
      rcases hfk : f (innerTrace f s (k - 1)) with ⟨s2, r⟩
      rw [hfk] at hready
      simp only at hready
      subst hready
      simp [pollsFrom, h1, MaybeDone.poll, hfk]
    have hke : (k - 1) + 1 = k := Nat.succ_pred_eq_of_pos hk
    rw [← hke]
    exact hstep
  refine ⟨?_, ?_, ?_, ?_⟩
  · intro i hi0 hik
    have h1 := hAfter (i - 1) (by omega)
    have h2 : (f (innerTrace f s (i - 1))).2 = Poll.Pending := hpend (i - 1) (by omega)
    rcases hfi : f (innerTrace f s (i - 1)) with ⟨s2, r⟩
    rw [hfi] at h2
    simp only at h2
    subst h2
    simp [pollResultAt, h1, MaybeDone.poll, hfi]
  · have h1 := hAfter (k - 1) (le_refl _)
    rcases hfk : f (innerTrace f s (k - 1)) with ⟨s2, r⟩
    rw [hfk] at hready
    simp only at hready
    subst hready
    simp [pollResultAt, h1, MaybeDone.poll, hfk]
  · intro i hik
    have h1 := hAfter i (by omega)
    simp [isTermAfter, h1, MaybeDone.is_terminated]
  · intro i hki
    obtain ⟨j, rfl⟩ := Nat.exists_eq_add_of_le hki
    have h1 := pollsFrom_stable_done f v k (maybe_done s) hDoneK j
    simp [isTermAfter, h1, MaybeDone.is_terminated]

/-- Witness for C3: a countdown future completing with `7` on its second
poll (`k = 2`). -/
theorem poll_k_times_spec_witness :
    (0 < 2
      ∧ (∀ i, i < 2 - 1 →
          ((fun n : Nat => if n = 0 then ((0 : Nat), Poll.Ready (7 : Nat)) else (n - 1, Poll.Pending))
            (innerTrace (fun n : Nat => if n = 0 then ((0 : Nat), Poll.Ready (7 : Nat)) else (n - 1, Poll.Pending)) 1 i)).2 = Poll.Pending)
      ∧ (((fun n : Nat => if n = 0 then ((0 : Nat), Poll.Ready (7 : Nat)) else (n - 1, Poll.Pending))
            (innerTrace (fun n : Nat => if n = 0 then ((0 : Nat), Poll.Ready (7 : Nat)) else (n - 1, Poll.Pending)) 1 (2 - 1))).2 = Poll.Ready 7))
    ∧ ((∀ i, 0 < i → i < 2 →
          pollResultAt (fun n : Nat => if n = 0 then ((0 : Nat), Poll.Ready (7 : Nat)) else (n - 1, Poll.Pending)) 1 i =
            Except.ok (Poll.Pending : Poll Unit))
      ∧ pollResultAt (fun n : Nat => if n = 0 then ((0 : Nat), Poll.Ready (7 : Nat)) else (n - 1, Poll.Pending)) 1 2 =
          Except.ok (Poll.Ready ())
      ∧ (∀ i, i < 2 →
          isTermAfter (fun n : Nat => if n = 0 then ((0 : Nat), Poll.Ready (7 : Nat)) else (n - 1, Poll.Pending)) 1 i =
            Except.ok false)
      ∧ (∀ i, 2 ≤ i →
          isTermAfter (fun n : Nat => if n = 0 then ((0 : Nat), Poll.Ready (7 : Nat)) else (n - 1, Poll.Pending)) 1 i =
            Except.ok true)) :=
  ⟨⟨by decide, by decide, by decide⟩,
    poll_k_times_spec
      (fun n : Nat => if n = 0 then ((0 : Nat), Poll.Ready (7 : Nat)) else (n - 1, Poll.Pending))
      1 2 7 (by decide) (by decide) (by decide)⟩

end FuturesUtil
